import Mathlib

/-!
Verification of the sports-fan-timeline alignment-and-labeling core.

This file gives a shallow embedding of the core of the repository
(`src/timeline/align_time.py`, `src/timeline/windowing.py`,
`src/timeline/teacher.py`) and proves properties of the embedded
definitions.

Modelling conventions:
* Python `str` is modelled as `List Char` (`Str`), so that whitespace
  tokenization (`str.split()`), substring tests (`in`), and character
  filters (`re.sub`) are ordinary list operations.
* Python machine integers are `Int`; Python `//` and `%` on ints are
  `Int.fdiv` / `Int.fmod` (floor division), and non-negative values are
  handled through `Int.toNat` where the code guarantees non-negativity.
* The VADER compound score is an external lexicon lookup; it is modelled
  as an explicit function parameter `score : Str → ℚ` threaded through the
  sentiment functions (the code uses a process-global analyzer instance).
* Python `dict` records are explicit structures; `d.get(k, default)` on a
  key that may be absent is an `Option` field, and `d.get(k, default)` on
  a key assumed present is a plain field.
* Python's stable `sorted`/`list.sort` is modelled by a stable insertion
  sort `sortL` (stability and ordering determine the output uniquely, and
  a structural definition keeps every function kernel-executable).
-/

abbrev Str := List Char

/-- Character list of a string literal. -/
def str (s : String) : Str := s.data

/-- Whitespace test used by `str.split()` / `str.strip()`. -/
def isWS (c : Char) : Bool := c.isWhitespace

/-- Accumulator for `splitWS`: `acc` holds the current (reversed) token. -/
def splitWSAux : Str → Str → List Str
  | [], acc => if acc = [] then [] else [acc.reverse]
  | c :: cs, acc =>
    if isWS c then
      if acc = [] then splitWSAux cs [] else acc.reverse :: splitWSAux cs []
    else splitWSAux cs (c :: acc)

/-- Python `s.split()`: maximal runs of non-whitespace characters. -/
def splitWS (s : Str) : List Str := splitWSAux s []

/-- Python `" ".join(ts)`: tokens joined by single spaces. -/
def unwords : List Str → Str
  | [] => []
  | [t] => t
  | t :: ts => t ++ (' ' :: unwords ts)

/-- Python `s.strip()`: drop leading and trailing whitespace. -/
def strip (s : Str) : Str :=
  ((s.dropWhile isWS).reverse.dropWhile isWS).reverse

/-- Python `s.capitalize()`: first character upper-cased, rest lower-cased. -/
def capitalize : Str → Str
  | [] => []
  | c :: cs => c.toUpper :: cs.map Char.toLower

/-- Stable insertion into a list ordered by `le`. -/
def insertL (le : α → α → Bool) (x : α) : List α → List α
  | [] => [x]
  | y :: ys => if le x y then x :: y :: ys else y :: insertL le x ys

/-- Stable sort (models Python's stable `sorted`). -/
def sortL (le : α → α → Bool) (l : List α) : List α :=
  l.foldr (insertL le) []

/-- Rendering of an integer, as Python `str(n)` / f-strings. -/
def intToStr (n : Int) : Str := (toString n).data

/-- Rendering of a natural number (a Python int known non-negative). -/
def natToStr (n : Nat) : Str := (toString n).data

/-- Python `f"{n:02d}"` for the non-negative values produced by the clock
formulas. -/
def pad2 (n : Nat) : Str :=
  if n < 10 then '0' :: natToStr n else natToStr n

/-! ## Data model

`Comment` embeds the comment dicts: `body` and `score` are read with
defaults `""`/`0` (plain fields), while `created_utc` and `elapsed` are
genuinely optional keys in the code paths under study. `Event` embeds the
play-by-play event dicts of `teacher.py`/`windowing.py`. -/

structure Comment where
  body : Str
  score : Int
  created_utc : Option Int
  elapsed : Option Int
deriving DecidableEq, Repr

structure Event where
  team : Str
  points : Int
  desc : Str
  elapsed : Option Int
deriving DecidableEq, Repr

/-! ## align_time.py -/

/-- `utc_to_game_clock` (align_time.py lines 17-44): convert a UTC
timestamp to a game-clock label, `none` when pre-game. -/
def utc_to_game_clock (comment_ts game_start_ts : Int) : Option Str :=
  let delta := comment_ts - game_start_ts
  if delta < 0 then none
  else
    let d := delta.toNat
    let period := d / 720 + 1
    let secs_into_q := d % 720
    let label := if period > 4 then str "OT" ++ natToStr (period - 4)
                 else str "Q" ++ natToStr period
    let mm := 11 - secs_into_q / 60
    let ss := 59 - secs_into_q % 60
    some (label ++ (' ' :: pad2 mm) ++ (':' :: pad2 ss))

/-- `add_elapsed_times` (align_time.py lines 80-86): set
`elapsed = max(0, created_utc - game_start_utc)` on every comment, with
`created_utc` defaulting to `0` when absent. -/
def add_elapsed_times (comments : List Comment) (game_start_utc : Int) :
    List Comment :=
  comments.map fun c =>
    { c with elapsed := some (max 0 ((c.created_utc.getD 0) - game_start_utc)) }

/-! ## windowing.py -/

structure WinData where
  comments : List Comment
  pbp : List Event
deriving DecidableEq, Repr

/-- Association-list update used by `build_windows`: append the comment to
window `k`, creating the window at the end on first member (Python dict
insertion-order semantics). -/
def addComment (k : Int) (c : Comment) : List (Int × WinData) → List (Int × WinData)
  | [] => [(k, ⟨[c], []⟩)]
  | (k', d) :: ws =>
    if k' = k then (k', ⟨d.comments ++ [c], d.pbp⟩) :: ws
    else (k', d) :: addComment k c ws

/-- Association-list update used by `build_windows` for PBP events. -/
def addEvent (k : Int) (e : Event) : List (Int × WinData) → List (Int × WinData)
  | [] => [(k, ⟨[], [e]⟩)]
  | (k', d) :: ws =>
    if k' = k then (k', ⟨d.comments, d.pbp ++ [e]⟩) :: ws
    else (k', d) :: addEvent k e ws

/-- One comment-loop iteration of `build_windows`: skip comments lacking
`elapsed`, otherwise add to window `elapsed // win_len`. -/
def commentStep (win_len : Int) (ws : List (Int × WinData)) (c : Comment) :
    List (Int × WinData) :=
  match c.elapsed with
  | none => ws
  | some e => addComment (Int.fdiv e win_len) c ws

/-- One PBP-loop iteration of `build_windows`. -/
def eventStep (win_len : Int) (ws : List (Int × WinData)) (ev : Event) :
    List (Int × WinData) :=
  match ev.elapsed with
  | none => ws
  | some e => addEvent (Int.fdiv e win_len) ev ws

/-- `build_windows` (windowing.py lines 11-42): bucket comments and PBP
events into windows keyed by `elapsed // win_len`; records lacking
`elapsed` are skipped. The Python dict is modelled as an insertion-ordered
association list. -/
def build_windows (comments : List Comment) (pbp_events : List Event)
    (win_len : Int) : List (Int × WinData) :=
  pbp_events.foldl (eventStep win_len) (comments.foldl (commentStep win_len) [])

structure WindowSummary where
  win_id : Int
  period : Int
  clock_start : Str
  score_before : Str
  score_after : Str
  comments : List Comment
  pbp : List Event
deriving DecidableEq, Repr

/-- `create_window_summary` (windowing.py lines 44-70). -/
def create_window_summary (win_id : Int) (window_data : WinData)
    (win_len : Int) : WindowSummary :=
  let start_sec := win_id * win_len
  let period := Int.fdiv start_sec 720 + 1
  let secs_into_period := (Int.fmod start_sec 720).toNat
  let clock_start :=
    pad2 (11 - secs_into_period / 60) ++ (':' :: pad2 (59 - secs_into_period % 60))
  { win_id := win_id
    period := period
    clock_start := clock_start
    score_before := str "0-0"
    score_after := str "0-0"
    comments := window_data.comments
    pbp := window_data.pbp }

/-! ## teacher.py -/

/-- Threshold classification shared by `vader_label`'s branches. -/
def classifyScore (x : ℚ) : Str :=
  if x > 1/4 then str "pos" else if x < -(1/4) then str "neg" else str "mixed"

/-- `vader_label` (teacher.py lines 16-34); the analyzer's compound score
is the explicit parameter `score`. -/
def vader_label (score : Str → ℚ) (text : Str) : Str :=
  if strip text = [] then str "mixed" else classifyScore (score text)

/-- Scores collected by `trimmed_mean_sentiment` (teacher.py lines 49-54):
one compound score per comment with a non-blank body. -/
def gather_scores (score : Str → ℚ) (comments : List Comment) : List ℚ :=
  comments.filterMap fun c =>
    if strip c.body = [] then none else some (score c.body)

/-- The word handed back to `vader_label` by `trimmed_mean_sentiment`'s
final line. -/
def meanWord (mean_score : ℚ) : Str :=
  if mean_score > 1/4 then str "positive"
  else if mean_score < -(1/4) then str "negative"
  else str "neutral"

/-- Mean of a list of rationals (`np.mean`). -/
def listMean (l : List ℚ) : ℚ := l.sum / l.length

/-- Aggregation core of `trimmed_mean_sentiment` (teacher.py lines 59-66):
sort by absolute value, trim `max(1, int(n * 0.1))` from each end when
`n > 2 * trim_count` (Python slice `l[t:-t]`), then classify the mean.
`int(n * 0.1)` equals `n / 10` in natural division for these list sizes. -/
def aggregate_scores (score : Str → ℚ) (sentiments : List ℚ) : Str :=
  let sorted := sortL (fun a b => decide (|a| ≤ |b|)) sentiments
  let trim_count := max 1 (sentiments.length / 10)
  let trimmed :=
    if 2 * trim_count < sentiments.length then
      (sorted.take (sorted.length - trim_count)).drop trim_count
    else sorted
  let mean_score := listMean trimmed
  if trimmed = [] then vader_label score (str "dummy")
  else vader_label score (meanWord mean_score)

/-- `trimmed_mean_sentiment` (teacher.py lines 36-66). -/
def trimmed_mean_sentiment (score : Str → ℚ) (comments : List Comment) : Str :=
  if comments = [] then str "mixed"
  else
    let sentiments := gather_scores score comments
    if sentiments = [] then str "mixed"
    else aggregate_scores score sentiments

/-- Per-team score list built by `is_run` (teacher.py lines 81-88):
append `points` to the team's entry, creating the entry at the end on
first occurrence (Python dict insertion order). -/
def addScore (t : Str) (p : Int) : List (Str × List Int) → List (Str × List Int)
  | [] => [(t, [p])]
  | (t', ps) :: rest =>
    if t' = t then (t', ps ++ [p]) :: rest
    else (t', ps) :: addScore t p rest

/-- The `team_scores` dict of `is_run`, as an association list. -/
def collect_team_scores : List Event → List (Str × List Int) → List (Str × List Int)
  | [], acc => acc
  | e :: es, acc =>
    collect_team_scores es
      (if e.team ≠ [] ∧ 0 < e.points then addScore e.team e.points acc else acc)

/-- `is_run` (teacher.py lines 68-97): first team whose collected points
sum to at least 8, with the placeholder star player. -/
def is_run (pbp_events : List Event) : Option (Str × Int × Str) :=
  if pbp_events.length < 2 then none
  else
    ((collect_team_scores pbp_events []).find? fun x => decide (8 ≤ x.2.sum)).map
      fun x => (x.1, x.2.sum, str "star")

/-- `pat` is a prefix of `s` (character-wise). -/
def startsW : Str → Str → Bool
  | [], _ => true
  | _ :: _, [] => false
  | p :: ps, c :: cs => p == c && startsW ps cs

/-- Python `pat in s`: `pat` occurs contiguously in `s`. -/
def hasSub : Str → Str → Bool
  | [], pat => pat.isEmpty
  | c :: cs, pat => startsW pat (c :: cs) || hasSub cs pat

/-- Shot-type extraction of `is_lead_change` (teacher.py lines 119-127). -/
def shotType (desc : Str) : Str :=
  if hasSub desc (str "3PT") then str "three-pointer"
  else if hasSub desc (str "Free Throw") then str "free throw"
  else if hasSub desc (str "Dunk") then str "dunk"
  else if hasSub desc (str "Layup") then str "layup"
  else str "shot"

/-- `is_lead_change` (teacher.py lines 99-131): first event with positive
points, with the placeholder player. -/
def is_lead_change (pbp_events : List Event) : Option (Str × Str × Str) :=
  if pbp_events.length < 1 then none
  else
    (pbp_events.find? fun e => decide (0 < e.points)).map
      fun e => (e.team, str "player", shotType e.desc)

def highlight_keywords : List Str :=
  [str "block", str "dunk", str "steal", str "alley-oop",
   str "behind-the-back", str "no-look"]

/-- `is_highlight_play` (teacher.py lines 133-152): first event whose
lower-cased description contains a highlight keyword, paired with the
first such keyword in keyword order. -/
def is_highlight_play : List Event → Option (Str × Str)
  | [] => none
  | e :: es =>
    match highlight_keywords.find? fun k => hasSub (e.desc.map Char.toLower) k with
    | some k => some (str "player", k)
    | none => is_highlight_play es

/-- The scoring-run sentence of `summarize_window` (teacher.py line 168). -/
def runDesc (team : Str) (run_len : Int) (star : Str) : Str :=
  team ++ (' ' :: intToStr run_len) ++ str "-0 run as " ++ star ++
    str " scores " ++ intToStr run_len ++ str " straight."

/-- The lead-change sentence of `summarize_window` (teacher.py line 175). -/
def leadDesc (team : Str) (player : Str) (shot_type : Str) : Str :=
  team ++ str " retake the lead on " ++ player ++ (' ' :: shot_type) ++ str "."

/-- The highlight sentence of `summarize_window` (teacher.py line 182). -/
def highlightDesc (player : Str) (play_type : Str) : Str :=
  player ++ str " emphatic " ++ play_type ++ str " fires up fans."

/-- `summarize_window` (teacher.py lines 154-198): priority-ordered rule
engine with the last-event fallback and the terminal default. The
`comments` argument is accepted and unused, as in the code. -/
def summarize_window (pbp_events : List Event) (_comments : List Comment) : Str :=
  match is_run pbp_events with
  | some (team, run_len, star) => runDesc team run_len star
  | none =>
  match is_lead_change pbp_events with
  | some (team, player, shot_type) => leadDesc team player shot_type
  | none =>
  match is_highlight_play pbp_events with
  | some (player, play_type) => highlightDesc player play_type
  | none =>
  match pbp_events.getLast? with
  | some last_event =>
    if last_event.desc ≠ [] then
      let summary := capitalize last_event.desc
      if 20 < (splitWS summary).length then
        unwords ((splitWS summary).take 20) ++ str "..."
      else summary
    else str "Game action continues."
  | none => str "Game action continues."

/-- Characters kept by `re.sub(r'[^\w\s\-\']', '', body)` in
`add_fan_quotes`. -/
def keepQuoteChar (c : Char) : Bool :=
  c.isAlphanum || c = '_' || c.isWhitespace || c = '-' || c = Char.ofNat 39

/-- Quote-appending loop of `add_fan_quotes` (teacher.py lines 218-228). -/
def addQuotesLoop : List (Int × Str) → Str → Nat → Str
  | [], summary, _ => summary
  | (_, body) :: rest, summary, quotes_added =>
    if 2 ≤ quotes_added then summary
    else if body ≠ [] ∧ body.length ≤ 40 then
      let clean_quote := body.filter keepQuoteChar
      if clean_quote ≠ [] ∧ (splitWS clean_quote).length ≤ 8 then
        addQuotesLoop rest
          (summary ++ (' ' :: Char.ofNat 34 :: clean_quote ++ [Char.ofNat 34]))
          (quotes_added + 1)
      else addQuotesLoop rest summary quotes_added
    else addQuotesLoop rest summary quotes_added

/-- `add_fan_quotes` (teacher.py lines 200-230) with the default
`max_quotes = 2`: comments sorted stably by descending score, then up to
two short cleaned quotes appended. -/
def add_fan_quotes (summary : Str) (comments : List Comment) : Str :=
  if comments = [] then summary
  else
    let scored := comments.map fun c => (c.score, c.body)
    let scored := sortL (fun a b => decide (b.1 ≤ a.1)) scored
    addQuotesLoop scored summary 0

/-- `write_event` (teacher.py lines 232-250): summary, quotes, then the
final hard truncation to 28 whitespace-delimited tokens. -/
def write_event (pbp_events : List Event) (comments : List Comment) : Str :=
  let summary_with_quotes :=
    add_fan_quotes (summarize_window pbp_events comments) comments
  let words := splitWS summary_with_quotes
  if 28 < words.length then unwords (words.take 28) ++ str "..."
  else summary_with_quotes

/-- Window dict consumed by `label_window`; `period` and `clock_start`
are read with defaults `1` / `"00:00"` and modelled as plain fields. -/
structure Window where
  comments : List Comment
  pbp : List Event
  period : Int
  clock_start : Str
deriving DecidableEq, Repr

structure TimelineEntry where
  ts : Str
  event : Str
  fan_sentiment : Str
deriving DecidableEq, Repr

structure LabeledWindow where
  timeline : List TimelineEntry
deriving DecidableEq, Repr

/-- `label_window` (teacher.py lines 252-288). -/
def label_window (score : Str → ℚ) (win : Window) : LabeledWindow :=
  let fan_sentiment := trimmed_mean_sentiment score win.comments
  let event := write_event win.pbp win.comments
  let period_label :=
    if win.period > 4 then str "OT" ++ intToStr (win.period - 4)
    else str "Q" ++ intToStr win.period
  let timestamp := period_label ++ (' ' :: win.clock_start)
  ⟨[⟨timestamp, event, fan_sentiment⟩]⟩

/-! Spec-side helper for stating claims about scoring runs: total points
collected for one team (positive points of events carrying that team). -/
def teamPointsList (t : Str) (pbp_events : List Event) : List Int :=
  (pbp_events.filter fun e => decide (e.team = t ∧ 0 < e.points)).map (·.points)

def teamPoints (t : Str) (pbp_events : List Event) : Int :=
  (teamPointsList t pbp_events).sum

/-- Association-list lookup on window keys (first occurrence). -/
def lookupW (k : Int) : List (Int × WinData) → Option WinData
  | [] => none
  | (k', d) :: ws => if k' = k then some d else lookupW k ws

/-- Spec-side membership test for claims about `build_windows`: a record
with this `elapsed` field belongs to window `k` at window length `L`. -/
def belongsTo (L k : Int) : Option Int → Bool
  | none => false
  | some e => decide (Int.fdiv e L = k)

/-- Merge used to state how the comment loop of `build_windows` extends a
window's content. -/
def mergeC : Option WinData → List Comment → Option WinData
  | none, fc => if fc = [] then none else some ⟨fc, []⟩
  | some d, fc => some ⟨d.comments ++ fc, d.pbp⟩

/-- Merge used to state how the PBP loop of `build_windows` extends a
window's content. -/
def mergeE : Option WinData → List Event → Option WinData
  | none, fe => if fe = [] then none else some ⟨[], fe⟩
  | some d, fe => some ⟨d.comments, d.pbp ++ fe⟩

/-- A concrete analyzer used to instantiate theorems that abstract over
the VADER compound score. -/
def witnessScore (t : Str) : ℚ :=
  if t = str "positive" then 1/2 else if t = str "negative" then -(1/2) else 0

/-! ## Tokenizer lemmas -/

theorem splitWSAux_all : ∀ (s acc : Str), (∀ c ∈ acc, isWS c = false) →
    ∀ t ∈ splitWSAux s acc, t ≠ [] ∧ ∀ c ∈ t, isWS c = false := by
  intro s
  induction s with
  | nil =>
    intro acc hacc t ht
    by_cases h : acc = []
    · simp [splitWSAux, h] at ht
    · simp [splitWSAux, h] at ht
      subst ht
      refine ⟨by simpa using h, fun c hc => hacc c (List.mem_reverse.mp hc)⟩
  | cons c cs ih =>
    intro acc hacc t ht
    by_cases hws : isWS c
    · by_cases h : acc = []
      · simp [splitWSAux, hws, h] at ht
        exact ih [] (by simp) t ht
      · simp [splitWSAux, hws, h] at ht
        rcases ht with ht | ht
        · subst ht
          refine ⟨by simpa using h, fun d hd => hacc d (List.mem_reverse.mp hd)⟩
        · exact ih [] (by simp) t ht
    · simp only [splitWSAux, hws, Bool.false_eq_true, if_false] at ht
      refine ih (c :: acc) ?_ t ht
      intro d hd
      rcases List.mem_cons.mp hd with rfl | hd
      · simpa using hws
      · exact hacc d hd

theorem splitWSAux_token : ∀ (t : Str), (∀ c ∈ t, isWS c = false) →
    ∀ (rest acc : Str), splitWSAux (t ++ rest) acc = splitWSAux rest (t.reverse ++ acc) := by
  intro t
  induction t with
  | nil => intro _ rest acc; simp
  | cons c cs ih =>
    intro h rest acc
    have hc : isWS c = false := h c (by simp)
    simp only [List.cons_append, splitWSAux, hc, Bool.false_eq_true, if_false,
      List.append_eq]
    rw [ih (fun d hd => h d (by simp [hd])) rest (c :: acc)]
    congr 1
    simp

theorem splitWS_unwords : ∀ (ts : List Str),
    (∀ t ∈ ts, t ≠ [] ∧ ∀ c ∈ t, isWS c = false) → splitWS (unwords ts) = ts := by
  intro ts
  induction ts with
  | nil => intro _; rfl
  | cons t ts ih =>
    intro h
    obtain ⟨ht, htc⟩ := h t (by simp)
    cases ts with
    | nil =>
      show splitWS t = [t]
      have h2 := splitWSAux_token t htc [] []
      simp only [List.append_nil] at h2
      unfold splitWS
      rw [h2]
      simp [splitWSAux, ht]
    | cons t' ts' =>
      show splitWS (t ++ (' ' :: unwords (t' :: ts'))) = t :: t' :: ts'
      unfold splitWS
      rw [splitWSAux_token t htc]
      simp only [List.append_nil]
      have hacc : t.reverse ≠ [] := by simpa using ht
      simp only [splitWSAux, show isWS ' ' = true from rfl, if_true, hacc, if_false,
        List.reverse_reverse]
      have ih' := ih (fun u hu => h u (by simp [hu]))
      unfold splitWS at ih'
      rw [ih']

theorem splitWS_unwords_append : ∀ (ts : List Str) (suf : Str), ts ≠ [] →
    (∀ t ∈ ts, t ≠ [] ∧ ∀ c ∈ t, isWS c = false) →
    suf ≠ [] → (∀ c ∈ suf, isWS c = false) →
    (splitWS (unwords ts ++ suf)).length = ts.length := by
  intro ts
  induction ts with
  | nil => intro suf h; exact absurd rfl h
  | cons t ts ih =>
    intro suf _ h hsuf hsufc
    obtain ⟨ht, htc⟩ := h t (by simp)
    cases ts with
    | nil =>
      show (splitWS (t ++ suf)).length = 1
      unfold splitWS
      rw [splitWSAux_token t htc suf []]
      have h2 := splitWSAux_token suf hsufc [] (t.reverse ++ [])
      simp only [List.append_nil] at h2 ⊢
      rw [h2]
      have hne : suf.reverse ++ t.reverse ≠ [] := by
        simp [ht, hsuf]
      simp [splitWSAux, hne]
    | cons t' ts' =>
      show (splitWS ((t ++ (' ' :: unwords (t' :: ts'))) ++ suf)).length
          = (t :: t' :: ts').length
      rw [List.append_assoc]
      unfold splitWS
      simp only [List.cons_append]
      rw [splitWSAux_token t htc]
      have hacc : t.reverse ++ [] ≠ [] := by simpa using ht
      simp only [splitWSAux, show isWS ' ' = true from rfl, if_true, hacc, if_false]
      have := ih suf (by simp) (fun u hu => h u (by simp [hu])) hsuf hsufc
      unfold splitWS at this
      simp [this]

/-- C5. For every list of events and every list of comments, the final
description produced by `write_event` (summary, quote insertion, final
hard truncation) contains at most 28 whitespace-delimited tokens. -/
theorem write_event_token_bound (pbp_events : List Event) (comments : List Comment) :
    (splitWS (write_event pbp_events comments)).length ≤ 28 := by
  unfold write_event
  generalize add_fan_quotes (summarize_window pbp_events comments) comments = s
  by_cases h : 28 < (splitWS s).length
  · rw [if_pos h]
    have hts : ∀ t ∈ (splitWS s).take 28, t ≠ [] ∧ ∀ c ∈ t, isWS c = false :=
      fun t ht => splitWSAux_all s [] (by simp) t (List.take_subset 28 _ ht)
    have hlen : ((splitWS s).take 28).length = 28 := by
      rw [List.length_take]; omega
    have hne : (splitWS s).take 28 ≠ [] := by
      intro hE; rw [hE] at hlen; simp at hlen
    rw [splitWS_unwords_append _ _ hne hts (by decide) (by decide)]
    omega
  · rw [if_neg h]; omega

/-! ## Clock Mapper claims -/

theorem intToStr_natCast (n : Nat) : intToStr (n : Int) = natToStr n := rfl

/-- C3. For every timestamp and event start with `delta ≥ 0`, the Clock
Mapper returns the label for period `⌊delta/720⌋+1`, rendered `"Q{p}"`
when `p ≤ 4` and `"OT{p-4}"` when `p > 4`, with countdown minutes
`11 - (delta % 720) / 60` and seconds `59 - (delta % 720) % 60`. -/
theorem clock_formula (comment_ts game_start_ts : Int)
    (h : 0 ≤ comment_ts - game_start_ts) :
    utc_to_game_clock comment_ts game_start_ts =
      some
        ((if (comment_ts - game_start_ts).toNat / 720 + 1 ≤ 4 then
            str "Q" ++ natToStr ((comment_ts - game_start_ts).toNat / 720 + 1)
          else
            str "OT" ++ natToStr ((comment_ts - game_start_ts).toNat / 720 + 1 - 4)) ++
          (' ' :: pad2 (11 - (comment_ts - game_start_ts).toNat % 720 / 60)) ++
          (':' :: pad2 (59 - (comment_ts - game_start_ts).toNat % 720 % 60))) := by
  simp only [utc_to_game_clock]
  rw [if_neg (by omega)]
  by_cases hp : (comment_ts - game_start_ts).toNat / 720 + 1 ≤ 4
  · rw [if_neg (by omega), if_pos hp]
  · rw [if_pos (by omega), if_neg hp]

/-- Witness for C3: Scenario A (`delta = 0 → "Q1 11:59"`) and Scenario B
(`delta = 750 → "Q2 11:29"`). -/
theorem clock_formula_spot :
    (0 ≤ (1000 : Int) - 1000 ∧ utc_to_game_clock 1000 1000 = some (str "Q1 11:59")) ∧
    (0 ≤ (1750 : Int) - 1000 ∧ utc_to_game_clock 1750 1000 = some (str "Q2 11:29")) :=
  ⟨⟨by decide, (clock_formula 1000 1000 (by decide)).trans (by decide)⟩,
   ⟨by decide, (clock_formula 1750 1000 (by decide)).trans (by decide)⟩⟩

/-- C9. For every comment timestamp strictly earlier than the event start
(`delta < 0`), `utc_to_game_clock` returns `none` — no label of any
kind. -/
theorem clock_pregame_none (comment_ts game_start_ts : Int)
    (h : comment_ts - game_start_ts < 0) :
    utc_to_game_clock comment_ts game_start_ts = none := by
  unfold utc_to_game_clock
  rw [if_pos h]

/-- Witness for C9 at `delta = -1`. -/
theorem clock_pregame_none_spot :
    ((999 : Int) - 1000 < 0) ∧ utc_to_game_clock 999 1000 = none :=
  ⟨by decide, clock_pregame_none 999 1000 (by decide)⟩

/-! ## Window Builder claims -/

/-- C2 (refuted; the code keeps the placeholder the spec forbids):
`create_window_summary` returns the constant `"0-0"` for both
`score_before` and `score_after`, for a window holding a 2-point scoring
event exactly as for an empty window — the fields do not depend on the
input events. -/
theorem score_fields_placeholder :
    ((create_window_summary 0 ⟨[], [⟨str "A", 2, str "A 2pt jumper", some 10⟩]⟩ 60).score_before
        = str "0-0") ∧
    ((create_window_summary 0 ⟨[], [⟨str "A", 2, str "A 2pt jumper", some 10⟩]⟩ 60).score_after
        = str "0-0") ∧
    ((create_window_summary 0 ⟨[], []⟩ 60).score_after = str "0-0") := by
  decide

/-- C7. For every non-negative window index `w` at window length 60, the
`(period, clock_start)` metadata of `create_window_summary` equals the
period and MM:SS countdown of the Clock Mapper's formula at
`delta = w * 60`, and `utc_to_game_clock` labels that instant with
exactly this period label and clock string. -/
theorem window_metadata_matches_clock (w : Nat) (wd : WinData) :
    (create_window_summary (w : Int) wd 60).period = ((w * 60) / 720 + 1 : Nat) ∧
    (create_window_summary (w : Int) wd 60).clock_start =
      pad2 (11 - (w * 60) % 720 / 60) ++ (':' :: pad2 (59 - (w * 60) % 720 % 60)) ∧
    utc_to_game_clock ((w : Int) * 60) 0 =
      some ((if 4 < (create_window_summary (w : Int) wd 60).period then
               str "OT" ++ intToStr ((create_window_summary (w : Int) wd 60).period - 4)
             else str "Q" ++ intToStr (create_window_summary (w : Int) wd 60).period) ++
            (' ' :: (create_window_summary (w : Int) wd 60).clock_start)) := by
  have e1 : ((w : Int) * 60) = ((w * 60 : Nat) : Int) := by push_cast; ring
  have h1 : (create_window_summary (w : Int) wd 60).period = ((w * 60) / 720 + 1 : Nat) := by
    show Int.fdiv ((w : Int) * 60) 720 + 1 = _
    rw [e1, Int.fdiv_eq_ediv _ (by omega)]
    omega
  have h2 : (create_window_summary (w : Int) wd 60).clock_start =
      pad2 (11 - (w * 60) % 720 / 60) ++ (':' :: pad2 (59 - (w * 60) % 720 % 60)) := by
    show pad2 (11 - (Int.fmod ((w : Int) * 60) 720).toNat / 60) ++
        (':' :: pad2 (59 - (Int.fmod ((w : Int) * 60) 720).toNat % 60)) = _
    have e4 : (Int.fmod ((w : Int) * 60) 720).toNat = (w * 60) % 720 := by
      rw [Int.fmod_eq_emod _ (by omega)]
      omega
    rw [e4]
  refine ⟨h1, h2, ?_⟩
  rw [h1, h2]
  simp only [utc_to_game_clock]
  rw [if_neg (by omega)]
  have e2 : (((w : Int) * 60) - 0).toNat = w * 60 := by
    rw [sub_zero, e1, Int.toNat_natCast]
  rw [e2]
  by_cases hp : 4 < (w * 60) / 720 + 1
  · rw [if_pos hp, if_pos (by exact_mod_cast hp)]
    have e3 : (((w * 60) / 720 + 1 : Nat) : Int) - 4 = (((w * 60) / 720 + 1 - 4 : Nat) : Int) := by
      omega
    rw [e3, intToStr_natCast]
    simp
  · rw [if_neg hp, if_neg (by exact_mod_cast hp)]
    rw [intToStr_natCast]
    simp

/-! ## build_windows characterization -/

theorem lookupW_addComment (k k' : Int) (c : Comment) :
    ∀ ws, lookupW k (addComment k' c ws) =
      if k' = k then
        (match lookupW k ws with
         | none => some ⟨[c], []⟩
         | some d => some ⟨d.comments ++ [c], d.pbp⟩)
      else lookupW k ws := by
  intro ws
  induction ws with
  | nil =>
    by_cases h : k' = k <;> simp [addComment, lookupW, h]
  | cons hd ws ih =>
    obtain ⟨k'', d⟩ := hd
    by_cases h1 : k'' = k'
    · subst h1
      by_cases h2 : k'' = k
      · subst h2
        simp [addComment, lookupW]
      · simp [addComment, lookupW, h2]
    · by_cases h2 : k' = k
      · subst h2
        simp [addComment, lookupW, h1, ih, Ne.symm h1]
      · by_cases h4 : k'' = k
        · subst h4
          simp [addComment, lookupW, h1, h2, ih]
        · simp [addComment, lookupW, h1, h2, h4, ih]

theorem lookupW_addEvent (k k' : Int) (e : Event) :
    ∀ ws, lookupW k (addEvent k' e ws) =
      if k' = k then
        (match lookupW k ws with
         | none => some ⟨[], [e]⟩
         | some d => some ⟨d.comments, d.pbp ++ [e]⟩)
      else lookupW k ws := by
  intro ws
  induction ws with
  | nil =>
    by_cases h : k' = k <;> simp [addEvent, lookupW, h]
  | cons hd ws ih =>
    obtain ⟨k'', d⟩ := hd
    by_cases h1 : k'' = k'
    · subst h1
      by_cases h2 : k'' = k
      · subst h2
        simp [addEvent, lookupW]
      · simp [addEvent, lookupW, h2]
    · by_cases h2 : k' = k
      · subst h2
        simp [addEvent, lookupW, h1, ih, Ne.symm h1]
      · by_cases h4 : k'' = k
        · subst h4
          simp [addEvent, lookupW, h1, h2, ih]
        · simp [addEvent, lookupW, h1, h2, h4, ih]

theorem keys_addComment (k : Int) (c : Comment) :
    ∀ ws : List (Int × WinData), (addComment k c ws).map Prod.fst =
      if lookupW k ws = none then ws.map Prod.fst ++ [k] else ws.map Prod.fst := by
  intro ws
  induction ws with
  | nil => simp [addComment, lookupW]
  | cons hd ws ih =>
    obtain ⟨k', d⟩ := hd
    by_cases h : k' = k
    · subst h
      simp [addComment, lookupW]
    · simp only [addComment, if_neg h, List.map_cons, lookupW, ih]
      split <;> simp

theorem keys_addEvent (k : Int) (e : Event) :
    ∀ ws : List (Int × WinData), (addEvent k e ws).map Prod.fst =
      if lookupW k ws = none then ws.map Prod.fst ++ [k] else ws.map Prod.fst := by
  intro ws
  induction ws with
  | nil => simp [addEvent, lookupW]
  | cons hd ws ih =>
    obtain ⟨k', d⟩ := hd
    by_cases h : k' = k
    · subst h
      simp [addEvent, lookupW]
    · simp only [addEvent, if_neg h, List.map_cons, lookupW, ih]
      split <;> simp

theorem lookupW_eq_none (k : Int) :
    ∀ ws : List (Int × WinData), lookupW k ws = none ↔ k ∉ ws.map Prod.fst := by
  intro ws
  induction ws with
  | nil => simp [lookupW]
  | cons hd ws ih =>
    obtain ⟨k', d⟩ := hd
    by_cases h : k' = k
    · subst h
      simp [lookupW]
    · simp [lookupW, h, ih, Ne.symm h]

theorem nodup_keys_addComment (k : Int) (c : Comment) (ws : List (Int × WinData))
    (h : (ws.map Prod.fst).Nodup) : ((addComment k c ws).map Prod.fst).Nodup := by
  rw [keys_addComment]
  split
  · rename_i hnone
    have hk := (lookupW_eq_none k ws).mp hnone
    simp [List.nodup_append, h, hk]
  · exact h

theorem nodup_keys_addEvent (k : Int) (e : Event) (ws : List (Int × WinData))
    (h : (ws.map Prod.fst).Nodup) : ((addEvent k e ws).map Prod.fst).Nodup := by
  rw [keys_addEvent]
  split
  · rename_i hnone
    have hk := (lookupW_eq_none k ws).mp hnone
    simp [List.nodup_append, h, hk]
  · exact h

theorem lookupW_foldC (L k : Int) :
    ∀ (cs : List Comment) (ws : List (Int × WinData)),
      lookupW k (cs.foldl (commentStep L) ws) =
        mergeC (lookupW k ws) (cs.filter fun c => belongsTo L k c.elapsed) := by
  intro cs
  induction cs with
  | nil =>
    intro ws
    cases h : lookupW k ws <;> simp [mergeC, h]
  | cons c cs ih =>
    intro ws
    simp only [List.foldl_cons]
    cases he : c.elapsed with
    | none =>
      have hb : belongsTo L k none = false := by simp [belongsTo]
      simp [commentStep, he, ih, List.filter_cons, hb]
    | some e =>
      by_cases hk : Int.fdiv e L = k
      · have hb : belongsTo L k (some e) = true := by simp [belongsTo, hk]
        simp only [commentStep, he, ih, List.filter_cons, hb, if_true]
        rw [lookupW_addComment, if_pos hk]
        cases hw : lookupW k ws with
        | none => simp [mergeC]
        | some d => simp [mergeC]
      · have hb : belongsTo L k (some e) = false := by simp [belongsTo, hk]
        simp only [commentStep, he, ih, List.filter_cons, hb, Bool.false_eq_true, if_false]
        rw [lookupW_addComment, if_neg hk]

theorem lookupW_foldE (L k : Int) :
    ∀ (es : List Event) (ws : List (Int × WinData)),
      lookupW k (es.foldl (eventStep L) ws) =
        mergeE (lookupW k ws) (es.filter fun ev => belongsTo L k ev.elapsed) := by
  intro es
  induction es with
  | nil =>
    intro ws
    cases h : lookupW k ws <;> simp [mergeE, h]
  | cons ev es ih =>
    intro ws
    simp only [List.foldl_cons]
    cases he : ev.elapsed with
    | none =>
      have hb : belongsTo L k none = false := by simp [belongsTo]
      simp [eventStep, he, ih, List.filter_cons, hb]
    | some e =>
      by_cases hk : Int.fdiv e L = k
      · have hb : belongsTo L k (some e) = true := by simp [belongsTo, hk]
        simp only [eventStep, he, ih, List.filter_cons, hb, if_true]
        rw [lookupW_addEvent, if_pos hk]
        cases hw : lookupW k ws with
        | none => simp [mergeE]
        | some d => simp [mergeE]
      · have hb : belongsTo L k (some e) = false := by simp [belongsTo, hk]
        simp only [eventStep, he, ih, List.filter_cons, hb, Bool.false_eq_true, if_false]
        rw [lookupW_addEvent, if_neg hk]

theorem lookupW_build_windows (cs : List Comment) (es : List Event) (L k : Int) :
    lookupW k (build_windows cs es L) =
      (if (cs.filter fun c => belongsTo L k c.elapsed) = [] ∧
          (es.filter fun ev => belongsTo L k ev.elapsed) = [] then none
       else some ⟨cs.filter fun c => belongsTo L k c.elapsed,
                  es.filter fun ev => belongsTo L k ev.elapsed⟩) := by
  unfold build_windows
  rw [lookupW_foldE, lookupW_foldC]
  have h0 : lookupW k ([] : List (Int × WinData)) = none := rfl
  rw [h0]
  cases hfc : (cs.filter fun c => belongsTo L k c.elapsed) with
  | nil =>
    simp only [mergeC, if_pos rfl]
    cases hfe : (es.filter fun ev => belongsTo L k ev.elapsed) with
    | nil => simp [mergeE]
    | cons b fe' => simp [mergeE]
  | cons a fc' =>
    simp only [mergeC]
    rw [if_neg (by simp)]
    simp [mergeE]

theorem nodup_keys_foldC (L : Int) :
    ∀ (cs : List Comment) (ws : List (Int × WinData)), (ws.map Prod.fst).Nodup →
      ((cs.foldl (commentStep L) ws).map Prod.fst).Nodup := by
  intro cs
  induction cs with
  | nil => intro ws h; simpa using h
  | cons c cs ih =>
    intro ws h
    simp only [List.foldl_cons]
    apply ih
    cases he : c.elapsed with
    | none => simpa [commentStep, he] using h
    | some e =>
      simp only [commentStep, he]
      exact nodup_keys_addComment _ _ _ h

theorem nodup_keys_foldE (L : Int) :
    ∀ (es : List Event) (ws : List (Int × WinData)), (ws.map Prod.fst).Nodup →
      ((es.foldl (eventStep L) ws).map Prod.fst).Nodup := by
  intro es
  induction es with
  | nil => intro ws h; simpa using h
  | cons ev es ih =>
    intro ws h
    simp only [List.foldl_cons]
    apply ih
    cases he : ev.elapsed with
    | none => simpa [eventStep, he] using h
    | some e =>
      simp only [eventStep, he]
      exact nodup_keys_addEvent _ _ _ h

/-- C8. `build_windows` is deterministic (it is a pure function of its
inputs; two builds from identical inputs are literally the same value) and
its result is fully characterized: window keys are pairwise distinct, and
window `k` holds exactly the records whose `elapsed // win_len` equals
`k`, in input (insertion) order — so membership, keys, and within-window
order are determined by `(comments, events, window_length)` alone. -/
theorem build_windows_characterization (cs : List Comment) (es : List Event)
    (L : Int) (_hL : 0 < L) :
    build_windows cs es L = build_windows cs es L ∧
    ((build_windows cs es L).map Prod.fst).Nodup ∧
    ∀ k, lookupW k (build_windows cs es L) =
      (if (cs.filter fun c => belongsTo L k c.elapsed) = [] ∧
          (es.filter fun ev => belongsTo L k ev.elapsed) = [] then none
       else some ⟨cs.filter fun c => belongsTo L k c.elapsed,
                  es.filter fun ev => belongsTo L k ev.elapsed⟩) :=
  ⟨rfl,
   nodup_keys_foldE L es _ (nodup_keys_foldC L cs [] (by simp)),
   fun k => lookupW_build_windows cs es L k⟩

/-- Witness for C8: Scenario C — comments with elapsed 5, 65, 125 at
window length 60 give three windows 0, 1, 2 with one comment each; spot
check at key 1. -/
theorem build_windows_characterization_spot :
    (0 : Int) < 60 ∧
    lookupW 1 (build_windows
      [⟨str "a", 0, none, some 5⟩, ⟨str "b", 0, none, some 65⟩,
       ⟨str "c", 0, none, some 125⟩] [] 60) =
      some ⟨[⟨str "b", 0, none, some 65⟩], []⟩ :=
  ⟨by decide,
   ((build_windows_characterization
      [⟨str "a", 0, none, some 5⟩, ⟨str "b", 0, none, some 65⟩,
       ⟨str "c", 0, none, some 125⟩] [] 60 (by decide)).2.2 1).trans (by decide)⟩

/-- C10. A comment lacking `created_utc` gets timestamp 0 and
`elapsed = max(0, 0 - game_start_utc) = 0` from `add_elapsed_times`
(for a non-negative game-start timestamp), and is then placed in window 0
by `build_windows` rather than skipped. -/
theorem missing_created_utc_window_zero (c : Comment) (cs : List Comment)
    (es : List Event) (start : Int) (hmem : c ∈ cs) (hc : c.created_utc = none)
    (hstart : 0 ≤ start) :
    ({c with elapsed := some 0} ∈ add_elapsed_times cs start) ∧
    ∃ wd, lookupW 0 (build_windows (add_elapsed_times cs start) es 60) = some wd ∧
      {c with elapsed := some 0} ∈ wd.comments := by
  have hmax : max 0 ((c.created_utc.getD 0) - start) = 0 := by
    rw [hc]
    simp only [Option.getD_none]
    omega
  have hmem' : ({c with elapsed := some 0} : Comment) ∈ add_elapsed_times cs start := by
    unfold add_elapsed_times
    refine List.mem_map.mpr ⟨c, hmem, ?_⟩
    rw [hmax]
  refine ⟨hmem', ?_⟩
  rw [lookupW_build_windows]
  have hbel : belongsTo 60 0 (({c with elapsed := some 0} : Comment).elapsed) = true := by
    simp [belongsTo]
  have hfil : ({c with elapsed := some 0} : Comment) ∈
      (add_elapsed_times cs start).filter (fun x => belongsTo 60 0 x.elapsed) :=
    List.mem_filter.mpr ⟨hmem', hbel⟩
  have hne : (add_elapsed_times cs start).filter (fun x => belongsTo 60 0 x.elapsed) ≠ [] :=
    List.ne_nil_of_mem hfil
  rw [if_neg (by intro hand; exact hne hand.1)]
  exact ⟨_, rfl, hfil⟩

/-- Witness for C10 at a concrete comment and game start 500. -/
theorem missing_created_utc_window_zero_spot :
    ((⟨str "hi", 1, none, none⟩ : Comment).created_utc = none) ∧ ((0 : Int) ≤ 500) ∧
    ∃ wd, lookupW 0 (build_windows
        (add_elapsed_times [⟨str "hi", 1, none, none⟩] 500) [] 60) = some wd ∧
      ({(⟨str "hi", 1, none, none⟩ : Comment) with elapsed := some 0} : Comment) ∈ wd.comments :=
  ⟨rfl, by decide,
   (missing_created_utc_window_zero ⟨str "hi", 1, none, none⟩
      [⟨str "hi", 1, none, none⟩] [] 500 (by decide) rfl (by decide)).2⟩

/-! ## Sentiment range and Teacher Assembler claims -/

theorem classifyScore_mem (x : ℚ) :
    classifyScore x = str "pos" ∨ classifyScore x = str "neg" ∨
      classifyScore x = str "mixed" := by
  unfold classifyScore
  split
  · exact Or.inl rfl
  · split
    · exact Or.inr (Or.inl rfl)
    · exact Or.inr (Or.inr rfl)

theorem vader_label_mem (score : Str → ℚ) (t : Str) :
    vader_label score t = str "pos" ∨ vader_label score t = str "neg" ∨
      vader_label score t = str "mixed" := by
  unfold vader_label
  split
  · exact Or.inr (Or.inr rfl)
  · exact classifyScore_mem _

theorem aggregate_scores_mem (score : Str → ℚ) (l : List ℚ) :
    aggregate_scores score l = str "pos" ∨ aggregate_scores score l = str "neg" ∨
      aggregate_scores score l = str "mixed" := by
  simp only [aggregate_scores]
  split <;> (split <;> exact vader_label_mem _ _)

theorem trimmed_mean_sentiment_mem (score : Str → ℚ) (cs : List Comment) :
    trimmed_mean_sentiment score cs = str "pos" ∨
      trimmed_mean_sentiment score cs = str "neg" ∨
      trimmed_mean_sentiment score cs = str "mixed" := by
  simp only [trimmed_mean_sentiment]
  split
  · exact Or.inr (Or.inr rfl)
  · split
    · exact Or.inr (Or.inr rfl)
    · exact aggregate_scores_mem _ _

/-- C6. Every window yields exactly one timeline entry (none dropped);
the sentiment label is always exactly one of `pos`, `neg`, `mixed`; and a
window with no comments and no events still yields an entry whose
description is the literal `"Game action continues."` and whose sentiment
is `"mixed"`. -/
theorem label_window_total (score : Str → ℚ) (win : Window) :
    (label_window score win).timeline.length = 1 ∧
    (∀ e ∈ (label_window score win).timeline,
      e.fan_sentiment = str "pos" ∨ e.fan_sentiment = str "neg" ∨
        e.fan_sentiment = str "mixed") ∧
    (win.comments = [] → win.pbp = [] →
      ∃ ts0, (label_window score win).timeline =
        [⟨ts0, str "Game action continues.", str "mixed"⟩]) := by
  refine ⟨rfl, ?_, ?_⟩
  · intro e he
    simp only [label_window, List.mem_singleton] at he
    subst he
    exact trimmed_mean_sentiment_mem score win.comments
  · intro hc hp
    obtain ⟨wc, wp, per, clk⟩ := win
    simp only at hc hp
    subst hc
    subst hp
    exact ⟨_, rfl⟩

/-- Witness for C6: an empty window at period 1. -/
theorem label_window_total_spot :
    ∃ ts0, (label_window (fun _ => 0) ⟨[], [], 1, str "11:59"⟩).timeline =
      [⟨ts0, str "Game action continues.", str "mixed"⟩] :=
  (label_window_total (fun _ => 0) ⟨[], [], 1, str "11:59"⟩).2.2 rfl rfl

/-! ## Sentiment Aggregator claim -/

theorem insertL_length (le : α → α → Bool) (x : α) :
    ∀ l : List α, (insertL le x l).length = l.length + 1 := by
  intro l
  induction l with
  | nil => rfl
  | cons y ys ih =>
    simp only [insertL]
    split
    · simp
    · simp [ih]

theorem sortL_length (le : α → α → Bool) (l : List α) :
    (sortL le l).length = l.length := by
  induction l with
  | nil => rfl
  | cons x xs ih =>
    simp only [sortL, List.foldr_cons] at *
    rw [insertL_length, ih]
    exact (List.length_cons x xs).symm

theorem vader_label_meanWord (score : Str → ℚ) (m : ℚ)
    (hp : 1/4 < score (str "positive")) (hn : score (str "negative") < -(1/4))
    (hz1 : ¬ (1/4 : ℚ) < score (str "neutral")) (hz2 : ¬ score (str "neutral") < -(1/4)) :
    vader_label score (meanWord m) =
      if 1/4 < m then str "pos" else if m < -(1/4) then str "neg" else str "mixed" := by
  by_cases h1 : (1/4 : ℚ) < m
  · rw [if_pos h1]
    unfold meanWord
    rw [if_pos h1]
    unfold vader_label
    rw [if_neg (by decide)]
    unfold classifyScore
    rw [if_pos hp]
  · rw [if_neg h1]
    by_cases h2 : m < -(1/4)
    · rw [if_pos h2]
      unfold meanWord
      rw [if_neg h1, if_pos h2]
      unfold vader_label
      rw [if_neg (by decide)]
      unfold classifyScore
      rw [if_neg (by linarith), if_pos hn]
    · rw [if_neg h2]
      unfold meanWord
      rw [if_neg h1, if_neg h2]
      unfold vader_label
      rw [if_neg (by decide)]
      unfold classifyScore
      rw [if_neg hz1, if_neg hz2]

/-- C4. For every non-empty list of per-comment polarity scores (and any
analyzer whose scores for the three summary words sit in the intended
bands), the aggregation of `trimmed_mean_sentiment` sorts the scores by
absolute magnitude, trims `max(1, ⌊0.1 n⌋)` elements from each end exactly
when `n` exceeds twice that trim count (otherwise uses the full list), and
labels the mean of the remainder `pos` above 1/4, `neg` below -1/4, and
`mixed` otherwise. -/
theorem aggregate_trimmed_mean (score : Str → ℚ) (l : List ℚ) (hne : l ≠ [])
    (hp : 1/4 < score (str "positive")) (hn : score (str "negative") < -(1/4))
    (hz1 : ¬ (1/4 : ℚ) < score (str "neutral")) (hz2 : ¬ score (str "neutral") < -(1/4)) :
    aggregate_scores score l =
      (let sorted := sortL (fun a b => decide (|a| ≤ |b|)) l
       let t := max 1 (l.length / 10)
       let trimmed := if 2 * t < l.length then (sorted.drop t).take (l.length - 2 * t)
                      else sorted
       if 1/4 < listMean trimmed then str "pos"
       else if listMean trimmed < -(1/4) then str "neg" else str "mixed") := by
  have hslen : (sortL (fun a b => decide (|a| ≤ |b|)) l).length = l.length :=
    sortL_length _ _
  have hl0 : l.length ≠ 0 := fun h0 => hne (List.eq_nil_of_length_eq_zero h0)
  simp only [aggregate_scores, hslen]
  rw [List.drop_take]
  have harith : l.length - max 1 (l.length / 10) - max 1 (l.length / 10)
      = l.length - 2 * max 1 (l.length / 10) := by omega
  rw [harith]
  by_cases hcase : 2 * max 1 (l.length / 10) < l.length
  · rw [if_pos hcase]
    have hTne : List.take (l.length - 2 * max 1 (l.length / 10))
        (List.drop (max 1 (l.length / 10)) (sortL (fun a b => decide (|a| ≤ |b|)) l)) ≠ [] := by
      have hlen : (List.take (l.length - 2 * max 1 (l.length / 10))
          (List.drop (max 1 (l.length / 10))
            (sortL (fun a b => decide (|a| ≤ |b|)) l))).length
          = l.length - 2 * max 1 (l.length / 10) := by
        rw [List.length_take, List.length_drop, hslen]
        omega
      intro hE
      rw [hE] at hlen
      simp only [List.length_nil] at hlen
      omega
    rw [if_neg hTne]
    exact vader_label_meanWord score _ hp hn hz1 hz2
  · rw [if_neg hcase]
    have hTne : sortL (fun a b => decide (|a| ≤ |b|)) l ≠ [] := by
      intro hE
      rw [hE] at hslen
      simp only [List.length_nil] at hslen
      omega
    rw [if_neg hTne]
    exact vader_label_meanWord score _ hp hn hz1 hz2

/-- Witness for C4: Scenario D — scores [0.50, 0.60, 0.55] trim to [0.55]
and aggregate to `pos` under a concrete in-band analyzer. -/
theorem aggregate_trimmed_mean_spot :
    ([(1 : ℚ)/2, 3/5, 11/20] ≠ []) ∧
    aggregate_scores witnessScore [(1 : ℚ)/2, 3/5, 11/20] = str "pos" := by
  have e1 : witnessScore (str "positive") = 1/2 := rfl
  have e2 : witnessScore (str "negative") = -(1/2) := rfl
  have e3 : witnessScore (str "neutral") = 0 := rfl
  refine ⟨by simp, ?_⟩
  rw [aggregate_trimmed_mean witnessScore [(1 : ℚ)/2, 3/5, 11/20] (by simp)
      (by rw [e1]; norm_num) (by rw [e2]; norm_num)
      (by rw [e3]; norm_num) (by rw [e3]; norm_num)]
  have a1 : |(1 : ℚ)/2| = 1/2 := abs_of_pos (by norm_num)
  have a2 : |(3 : ℚ)/5| = 3/5 := abs_of_pos (by norm_num)
  have a3 : |(11 : ℚ)/20| = 11/20 := abs_of_pos (by norm_num)
  have dbc : decide (|(3 : ℚ)/5| ≤ |(11 : ℚ)/20|) = false :=
    decide_eq_false (by rw [a2, a3]; norm_num)
  have dac : decide (|(1 : ℚ)/2| ≤ |(11 : ℚ)/20|) = true :=
    decide_eq_true (by rw [a1, a3]; norm_num)
  have hsort : sortL (fun a b => decide (|a| ≤ |b|)) [(1 : ℚ)/2, 3/5, 11/20]
      = [1/2, 11/20, 3/5] := by
    simp only [sortL, List.foldr, insertL, dbc, dac, if_true, Bool.false_eq_true, if_false]
  simp only [hsort, List.length_cons, List.length_nil]
  norm_num [listMean]

/-! ## Event Summarizer scoring-run claim -/

theorem teamPointsList_append (t : Str) (es : List Event) (e : Event) :
    teamPointsList t (es ++ [e]) =
      teamPointsList t es ++ (if e.team = t ∧ 0 < e.points then [e.points] else []) := by
  unfold teamPointsList
  rw [List.filter_append, List.map_append]
  congr 1
  by_cases h : e.team = t ∧ 0 < e.points
  · simp [List.filter_cons, h]
  · simp [List.filter_cons, h]

theorem keys_addScore (t : Str) (p : Int) :
    ∀ acc : List (Str × List Int), (addScore t p acc).map Prod.fst =
      if t ∈ acc.map Prod.fst then acc.map Prod.fst else acc.map Prod.fst ++ [t] := by
  intro acc
  induction acc with
  | nil => simp [addScore]
  | cons hd rest ih =>
    obtain ⟨t', ps⟩ := hd
    by_cases h : t' = t
    · subst h
      simp [addScore]
    · simp only [addScore, if_neg h, List.map_cons, ih]
      by_cases hm : t ∈ rest.map Prod.fst
      · simp [hm, Ne.symm h]
      · simp [hm, Ne.symm h]

theorem exists_addScore (t : Str) (p : Int) :
    ∀ acc : List (Str × List Int), ∃ ps, (t, ps) ∈ addScore t p acc := by
  intro acc
  induction acc with
  | nil => exact ⟨[p], by simp [addScore]⟩
  | cons hd rest ih =>
    obtain ⟨t', ps'⟩ := hd
    by_cases h : t' = t
    · subst h
      exact ⟨ps' ++ [p], by simp [addScore]⟩
    · obtain ⟨ps, hps⟩ := ih
      exact ⟨ps, by simp [addScore, h, hps]⟩

theorem mem_addScore (t : Str) (p : Int) :
    ∀ acc : List (Str × List Int), (acc.map Prod.fst).Nodup →
      ∀ x ∈ addScore t p acc,
        (x ∈ acc ∧ x.1 ≠ t) ∨
        (x.1 = t ∧ ((∃ old, (t, old) ∈ acc ∧ x.2 = old ++ [p]) ∨
                    (x.2 = [p] ∧ t ∉ acc.map Prod.fst))) := by
  intro acc
  induction acc with
  | nil =>
    intro _ x hx
    simp only [addScore, List.mem_singleton] at hx
    subst hx
    exact Or.inr ⟨rfl, Or.inr ⟨rfl, by simp⟩⟩
  | cons hd rest ih =>
    intro hnd x hx
    obtain ⟨t', ps'⟩ := hd
    rw [List.map_cons, List.nodup_cons] at hnd
    obtain ⟨hnotin, hndrest⟩ := hnd
    by_cases h : t' = t
    · subst h
      simp only [addScore, if_pos rfl] at hx
      rcases List.mem_cons.mp hx with rfl | hx
      · exact Or.inr ⟨rfl, Or.inl ⟨ps', List.mem_cons_self _ _, rfl⟩⟩
      · refine Or.inl ⟨List.mem_cons_of_mem _ hx, fun hxt => ?_⟩
        exact hnotin (hxt ▸ List.mem_map.mpr ⟨x, hx, rfl⟩)
    · simp only [addScore, if_neg h] at hx
      rcases List.mem_cons.mp hx with rfl | hx
      · exact Or.inl ⟨List.mem_cons_self _ _, fun hc => h hc⟩
      · rcases ih hndrest x hx with ⟨hmem, hne⟩ | ⟨hx1, hrest⟩
        · exact Or.inl ⟨List.mem_cons_of_mem _ hmem, hne⟩
        · refine Or.inr ⟨hx1, ?_⟩
          rcases hrest with ⟨old, hold, he⟩ | ⟨he, hnin⟩
          · exact Or.inl ⟨old, List.mem_cons_of_mem _ hold, he⟩
          · refine Or.inr ⟨he, ?_⟩
            simp only [List.map_cons, List.mem_cons]
            rintro (hc | hin)
            · exact h hc.symm
            · exact hnin hin

theorem collect_inv (es : List Event) :
    ∀ (acc : List (Str × List Int)) (prev : List Event),
      ((acc.map Prod.fst).Nodup ∧
       (∀ x ∈ acc, x.1 ≠ [] ∧ x.2 = teamPointsList x.1 prev) ∧
       (∀ t, t ≠ [] → teamPointsList t prev ≠ [] → t ∈ acc.map Prod.fst)) →
      ((collect_team_scores es acc).map Prod.fst).Nodup ∧
      (∀ x ∈ collect_team_scores es acc, x.1 ≠ [] ∧ x.2 = teamPointsList x.1 (prev ++ es)) ∧
      (∀ t, t ≠ [] → teamPointsList t (prev ++ es) ≠ [] →
        t ∈ (collect_team_scores es acc).map Prod.fst) := by
  induction es with
  | nil =>
    intro acc prev h
    simpa using h
  | cons e es ih =>
    intro acc prev h
    obtain ⟨hnd, hall, hex⟩ := h
    have hshift : prev ++ e :: es = (prev ++ [e]) ++ es := by simp
    rw [hshift]
    by_cases hc : e.team ≠ [] ∧ 0 < e.points
    · have heq : collect_team_scores (e :: es) acc
          = collect_team_scores es (addScore e.team e.points acc) := by
        simp [collect_team_scores, hc]
      have hnd' : ((addScore e.team e.points acc).map Prod.fst).Nodup := by
        rw [keys_addScore]
        split
        · exact hnd
        · rename_i hnot
          simp [List.nodup_append, hnd, hnot]
      have hall' : ∀ x ∈ addScore e.team e.points acc,
          x.1 ≠ [] ∧ x.2 = teamPointsList x.1 (prev ++ [e]) := by
        intro x hx
        rcases mem_addScore e.team e.points acc hnd x hx with
          ⟨hmem, hne⟩ | ⟨hx1, hform⟩
        · obtain ⟨hne0, hval⟩ := hall x hmem
          refine ⟨hne0, ?_⟩
          rw [teamPointsList_append, if_neg (fun hand => hne hand.1.symm),
            List.append_nil, hval]
        · refine ⟨by rw [hx1]; exact hc.1, ?_⟩
          rw [hx1, teamPointsList_append, if_pos ⟨rfl, hc.2⟩]
          rcases hform with ⟨old, holdmem, hxval⟩ | ⟨hxval, hnotin⟩
          · obtain ⟨_, holdval⟩ := hall _ holdmem
            have holdval' : old = teamPointsList e.team prev := holdval
            rw [hxval, holdval']
          · have hprev : teamPointsList e.team prev = [] := by
              by_contra hne
              exact hnotin (hex e.team hc.1 hne)
            rw [hxval, hprev, List.nil_append]
      have hex' : ∀ t, t ≠ [] → teamPointsList t (prev ++ [e]) ≠ [] →
          t ∈ (addScore e.team e.points acc).map Prod.fst := by
        intro t htne htl
        rw [keys_addScore]
        by_cases hteq : t = e.team
        · subst hteq
          split
          · rename_i hmem
            exact hmem
          · simp
        · have : teamPointsList t prev ≠ [] := by
            rw [teamPointsList_append, if_neg (fun hand => hteq hand.1.symm),
              List.append_nil] at htl
            exact htl
          have hmem := hex t htne this
          split
          · exact hmem
          · simp [hmem]
      rw [heq]
      exact ih (addScore e.team e.points acc) (prev ++ [e]) ⟨hnd', hall', hex'⟩
    · have heq : collect_team_scores (e :: es) acc = collect_team_scores es acc := by
        simp [collect_team_scores, hc]
      have hnilOrNp : e.team = [] ∨ ¬ 0 < e.points := by
        by_contra hcon
        push_neg at hcon
        exact hc ⟨hcon.1, hcon.2⟩
      have hall' : ∀ x ∈ acc, x.1 ≠ [] ∧ x.2 = teamPointsList x.1 (prev ++ [e]) := by
        intro x hx
        obtain ⟨hne0, hval⟩ := hall x hx
        refine ⟨hne0, ?_⟩
        rw [teamPointsList_append, if_neg, List.append_nil, hval]
        rintro ⟨hteam, hpts⟩
        rcases hnilOrNp with hnil | hnp
        · exact hne0 (hteam ▸ hnil)
        · exact hnp hpts
      have hex' : ∀ t, t ≠ [] → teamPointsList t (prev ++ [e]) ≠ [] →
          t ∈ acc.map Prod.fst := by
        intro t htne htl
        refine hex t htne ?_
        rw [teamPointsList_append, if_neg, List.append_nil] at htl
        · exact htl
        · rintro ⟨hteam, hpts⟩
          rcases hnilOrNp with hnil | hnp
          · exact htne (hteam.symm.trans hnil)
          · exact hnp hpts
      rw [heq]
      exact ih acc (prev ++ [e]) ⟨hnd, hall', hex'⟩

theorem is_run_spec (pbp : List Event) (h2 : 2 ≤ pbp.length)
    (t0 : Str) (ht0 : t0 ≠ []) (hsum : 8 ≤ teamPoints t0 pbp) :
    ∃ t, t ≠ [] ∧ 8 ≤ teamPoints t pbp ∧
      is_run pbp = some (t, teamPoints t pbp, str "star") := by
  have hinit : (([] : List (Str × List Int)).map Prod.fst).Nodup ∧
      (∀ x ∈ ([] : List (Str × List Int)), x.1 ≠ [] ∧ x.2 = teamPointsList x.1 []) ∧
      (∀ t, t ≠ [] → teamPointsList t [] ≠ [] →
        t ∈ ([] : List (Str × List Int)).map Prod.fst) := by
    refine ⟨by simp, by simp, fun t _ htl => absurd rfl htl⟩
  have hinv := collect_inv pbp [] [] hinit
  rw [List.nil_append] at hinv
  obtain ⟨hnd, hall, hex⟩ := hinv
  have ht0l : teamPointsList t0 pbp ≠ [] := by
    intro hE
    unfold teamPoints at hsum
    rw [hE] at hsum
    simp only [List.sum_nil] at hsum
    omega
  have ht0mem := hex t0 ht0 ht0l
  obtain ⟨⟨t1, ps1⟩, hmem1, hfst⟩ := List.mem_map.mp ht0mem
  obtain ⟨_, hval1⟩ := hall _ hmem1
  have hval1' : ps1 = teamPointsList t1 pbp := hval1
  have hfst' : t1 = t0 := hfst
  have hfind : ((collect_team_scores pbp []).find? fun x => decide (8 ≤ x.2.sum)) ≠ none := by
    rw [Ne, List.find?_eq_none]
    intro hnone
    refine hnone (t1, ps1) hmem1 ?_
    rw [decide_eq_true_eq]
    show 8 ≤ ps1.sum
    rw [hval1', hfst']
    exact hsum
  obtain ⟨x, hx⟩ := Option.ne_none_iff_exists'.mp hfind
  obtain ⟨xt, xv⟩ := x
  have hxmem := List.mem_of_find?_eq_some hx
  have hxpred := List.find?_some hx
  rw [decide_eq_true_eq] at hxpred
  obtain ⟨hxne, hxval⟩ := hall _ hxmem
  have hxne' : xt ≠ [] := hxne
  have hxval' : xv = teamPointsList xt pbp := hxval
  have hxpred' : (8 : Int) ≤ xv.sum := hxpred
  refine ⟨xt, hxne', ?_, ?_⟩
  · show (8 : Int) ≤ (teamPointsList xt pbp).sum
    rw [← hxval']
    exact hxpred'
  · unfold is_run
    rw [if_neg (by omega), hx]
    show some (xt, xv.sum, str "star") = some (xt, teamPoints xt pbp, str "star")
    rw [show xv.sum = teamPoints xt pbp from by rw [hxval']; rfl]

theorem summarize_of_is_run (pbp : List Event) (cms : List Comment)
    (t : Str) (n : Int) (s : Str) (h : is_run pbp = some (t, n, s)) :
    summarize_window pbp cms = runDesc t n s := by
  unfold summarize_window
  rw [h]

theorem run_ne_highlight (a : Str) (n : Int) (s p k : Str) :
    runDesc a n s ≠ highlightDesc p k := by
  intro h
  have h' := congrArg List.reverse h
  simp only [runDesc, highlightDesc, List.reverse_append, List.append_assoc] at h'
  have e1 : (str " straight.").reverse = str ".thgiarts " := by decide
  have e2 : (str " fires up fans.").reverse = str ".snaf pu serif " := by decide
  rw [e1, e2] at h'
  have h2 := congrArg (List.take 2) h'
  rw [List.take_append_of_le_length (by decide),
    List.take_append_of_le_length (by decide)] at h2
  exact absurd h2 (by decide)

/-- C1 (amended: `is_run` also requires at least two events in the
window). For every window with at least two PBP events in which some
non-empty team's positive points sum to at least 8, `summarize_window`
returns the scoring-run sentence `"{team} {points}-0 run as star scores
{points} straight."` for such a team with its summed points, and never
the highlight sentence — even when a highlight keyword occurs in an
event description. -/
theorem summarize_run_priority (pbp : List Event) (comments : List Comment)
    (h2 : 2 ≤ pbp.length) (t0 : Str) (ht0 : t0 ≠ [])
    (hsum : 8 ≤ teamPoints t0 pbp) :
    ∃ t, t ≠ [] ∧ 8 ≤ teamPoints t pbp ∧
      summarize_window pbp comments = runDesc t (teamPoints t pbp) (str "star") ∧
      ∀ p k, summarize_window pbp comments ≠ highlightDesc p k := by
  obtain ⟨t, htne, hts, hrun⟩ := is_run_spec pbp h2 t0 ht0 hsum
  have hs := summarize_of_is_run pbp comments _ _ _ hrun
  refine ⟨t, htne, hts, hs, fun p k => ?_⟩
  rw [hs]
  exact run_ne_highlight t (teamPoints t pbp) (str "star") p k

/-- Witness for C1: two events for team A summing to 8 (with a highlight
keyword present) produce the scoring-run sentence. -/
theorem summarize_run_priority_spot :
    (2 ≤ ([⟨str "A", 5, str "dunk one", none⟩,
           ⟨str "A", 3, str "tre", none⟩] : List Event).length) ∧
    (str "A" ≠ ([] : Str)) ∧
    (8 ≤ teamPoints (str "A")
      [⟨str "A", 5, str "dunk one", none⟩, ⟨str "A", 3, str "tre", none⟩]) ∧
    ∃ t, t ≠ [] ∧
      8 ≤ teamPoints t
        [⟨str "A", 5, str "dunk one", none⟩, ⟨str "A", 3, str "tre", none⟩] ∧
      summarize_window
          [⟨str "A", 5, str "dunk one", none⟩, ⟨str "A", 3, str "tre", none⟩] []
        = runDesc t (teamPoints t
            [⟨str "A", 5, str "dunk one", none⟩, ⟨str "A", 3, str "tre", none⟩])
            (str "star") ∧
      ∀ p k, summarize_window
          [⟨str "A", 5, str "dunk one", none⟩, ⟨str "A", 3, str "tre", none⟩] []
        ≠ highlightDesc p k :=
  ⟨by decide, by decide, by decide,
   summarize_run_priority _ [] (by decide) (str "A") (by decide) (by decide)⟩

/-- Counterexample to C1 as stated: a single 8-point event whose
description holds the highlight keyword "dunk". The team's points sum to
8, yet `summarize_window` emits the lead-change sentence — not the
scoring-run sentence — because `is_run` demands at least two events. -/
theorem summarize_run_priority_cex :
    (8 ≤ teamPoints (str "A") [⟨str "A", 8, str "big dunk", none⟩]) ∧
    (is_highlight_play [⟨str "A", 8, str "big dunk", none⟩]
      = some (str "player", str "dunk")) ∧
    summarize_window [⟨str "A", 8, str "big dunk", none⟩] []
      = str "A retake the lead on player shot." ∧
    summarize_window [⟨str "A", 8, str "big dunk", none⟩] []
      ≠ str "A 8-0 run as star scores 8 straight." := by
  decide
